import Mathlib

/-!
Verification of the core logic of the AI Learning Scheduler backend
(`src/main.py`): the duration parser `parse_duration_to_days`, the
granularity selector `get_schedule_granularity`, and the stream
reassembler `stream_json_objects`.

The embedding works over `List Char` (Python `str`, restricted to the
ASCII behaviour of the character classes involved) and `Int` (the Python
arbitrary-precision `int`).
-/

/-! ## Character classes (ASCII fragment of the Python semantics) -/

/-- Model of the Python whitespace class used by `str.strip` and the regex
class `\s` (ASCII part: space, tab, newline, carriage return, vertical
tab, form feed). -/
def isSpaceChar (c : Char) : Bool :=
  c.toNat = 32 || c.toNat = 9 || c.toNat = 10 || c.toNat = 13 || c.toNat = 11 || c.toNat = 12

/-- Model of the regex class `\d` (ASCII digits). -/
def isDigitChar (c : Char) : Bool :=
  48 ≤ c.toNat && c.toNat ≤ 57

/-- ASCII letters, used to state claims about unit words. -/
def isAsciiLetter (c : Char) : Bool :=
  (65 ≤ c.toNat && c.toNat ≤ 90) || (97 ≤ c.toNat && c.toNat ≤ 122)

/-- Model of the regex class `\w` (ASCII part: letters, digits, underscore). -/
def isWordChar (c : Char) : Bool :=
  isAsciiLetter c || isDigitChar c || c = '_'

/-- Model of `str.lower` on one character (ASCII part: map A-Z to a-z). -/
def pyLower (c : Char) : Char :=
  if 65 ≤ c.toNat && c.toNat ≤ 90 then Char.ofNat (c.toNat + 32) else c

/-! ## `str.strip` -/

/-- Drop leading whitespace, as in Python `str.lstrip`. -/
def lstrip (s : List Char) : List Char :=
  s.dropWhile isSpaceChar

/-- Drop trailing whitespace, as in Python `str.rstrip`. -/
def rstrip (s : List Char) : List Char :=
  (s.reverse.dropWhile isSpaceChar).reverse

/-- Model of Python `str.strip`: drop leading and trailing whitespace. -/
def stripChars (s : List Char) : List Char :=
  rstrip (lstrip s)

/-! ## Substring containment (Python `in` on strings) -/

/-- Boolean prefix test on character lists. -/
def startsWith : List Char → List Char → Bool
  | [], _ => true
  | _ :: _, [] => false
  | p :: ps, c :: cs => p == c && startsWith ps cs

/-- Model of Python `pat in s` for strings: `pat` occurs as a contiguous
substring of `s`. -/
def containsSub : List Char → List Char → Bool
  | pat, [] => pat.isEmpty
  | pat, c :: rest => startsWith pat (c :: rest) || containsSub pat rest

/-! ## Integer parsing -/

/-- Decimal value of a list of ASCII digits, as computed by Python
`int` on the digits-only group captured by `(\d+)`. -/
def digitsToNat (s : List Char) : Nat :=
  s.foldl (fun a c => a * 10 + (c.toNat - 48)) 0

/-- Accumulating parser for a digit string that may contain single
underscores between digits (Python `int` accepts such separators). -/
def digitsValAux : Nat → List Char → Option Nat
  | acc, [] => some acc
  | acc, c :: rest =>
    if isDigitChar c then digitsValAux (acc * 10 + (c.toNat - 48)) rest
    else if c = '_' then
      match rest with
      | [] => none
      | d :: _ => if isDigitChar d then digitsValAux acc rest else none
    else none

/-- Parse a nonempty digit string (underscore separators allowed, must
start with a digit). -/
def digitsWithUnderscores (s : List Char) : Option Nat :=
  match s with
  | [] => none
  | c :: rest => if isDigitChar c then digitsValAux 0 (c :: rest) else none

/-- Model of Python `int(s)` for base 10: optional surrounding
whitespace, an optional sign, then digits (with underscore separators);
`none` models the `ValueError` path. -/
def pyInt (s : List Char) : Option Int :=
  match stripChars s with
  | '+' :: rest => (digitsWithUnderscores rest).map (fun n => (n : Int))
  | '-' :: rest => (digitsWithUnderscores rest).map (fun n => -(n : Int))
  | t => (digitsWithUnderscores t).map (fun n => (n : Int))

/-! ## The regex `re.match(r"(\d+)\s*(\w+)", s)`

The Python `re.match` function anchors at the start and uses greedy matching with
backtracking: `\d+` first tries the maximal digit run, `\s*` the maximal
whitespace run at its position, and on failure shorter runs are tried
(digit count down to 1, space count down to 0).  The functions below are
a direct specialisation of that search order to this fixed pattern. -/

/-- One backtracking attempt: `\d+` has consumed `k` characters and
`\s*` has consumed `j` characters; `\w+` must then match at least one
character, greedily.  Returns (group 1, group 2) on success. -/
def trySplit (t : List Char) (k j : Nat) : Option (List Char × List Char) :=
  match (t.drop k).drop j with
  | [] => none
  | c :: rest =>
    if isWordChar c then some (t.take k, (c :: rest).takeWhile isWordChar) else none

/-- Backtracking over the length of `\s*`, from `j` (the maximal run)
down to 0. -/
def trySpaces (t : List Char) (k : Nat) : Nat → Option (List Char × List Char)
  | 0 => trySplit t k 0
  | j + 1 =>
    match trySplit t k (j + 1) with
    | some r => some r
    | none => trySpaces t k j

/-- Backtracking over the length of `\d+`, from the maximal digit run
down to 1; for each digit count the `\s*` run at that position is tried
greedily. -/
def tryDigits (t : List Char) : Nat → Option (List Char × List Char)
  | 0 => none
  | k + 1 =>
    match trySpaces t (k + 1) (((t.drop (k + 1)).takeWhile isSpaceChar).length) with
    | some r => some r
    | none => tryDigits t k

/-- Model of `re.match(r"(\d+)\s*(\w+)", t)`: `some (g1, g2)` holds the
two captured groups, `none` models a failed match. -/
def matchNumUnit (t : List Char) : Option (List Char × List Char) :=
  tryDigits t ((t.takeWhile isDigitChar).length)

/-! ## `parse_duration_to_days` (src/main.py lines 50-78) -/

/-- Model of `parse_duration_to_days`: lowercase and strip the input,
try the number+unit regex; on a match scale the number by the unit
(`day`, `week`, `month`, `year` tried in that order by substring
containment); otherwise try `int` on the whole string, falling back to
30. -/
def parse_duration_to_days (duration_str : String) : Int :=
  let t := stripChars (duration_str.data.map pyLower)
  match matchNumUnit t with
  | none =>
    match pyInt t with
    | some n => n
    | none => 30
  | some (g1, g2) =>
    let num : Int := (digitsToNat g1 : Int)
    if containsSub ("day").data g2 then num
    else if containsSub ("week").data g2 then num * 7
    else if containsSub ("month").data g2 then num * 30
    else if containsSub ("year").data g2 then num * 365
    else num

/-! ## `get_schedule_granularity` (src/main.py lines 80-113)

The five result triples (instruction text, JSON day-field shape, JSON
example) are reproduced verbatim from the source. -/

/-- A single-quote character, used inside the instruction strings. -/
def apos : String := String.mk [Char.ofNat 39]

/-- Triple returned for day counts above 365. -/
def monthlyBucket : String × String × String :=
  ("Your schedule should be monthly (e.g., " ++ apos ++ "Month 1" ++ apos ++ ", "
      ++ apos ++ "Month 2" ++ apos ++ ").",
   "\"day\": \"<string>\"",
   "\"day\": \"Month 1\"")

/-- Triple returned for day counts in (180, 365]. -/
def tenDayBucket : String × String × String :=
  ("Your schedule should be in 10-day blocks (e.g., " ++ apos ++ "1-10" ++ apos ++ ", "
      ++ apos ++ "11-20" ++ apos ++ ").",
   "\"day\": \"<string>\"",
   "\"day\": \"1-10\"")

/-- Triple returned for day counts in (60, 180]. -/
def fiveDayBucket : String × String × String :=
  ("Your schedule should be in 5-day blocks (e.g., " ++ apos ++ "1-5" ++ apos ++ ", "
      ++ apos ++ "6-10" ++ apos ++ ").",
   "\"day\": \"<string>\"",
   "\"day\": \"1-5\"")

/-- Triple returned for day counts in (30, 60]. -/
def twoDayBucket : String × String × String :=
  ("Your schedule should be in 2-day blocks (e.g., " ++ apos ++ "1-2" ++ apos ++ ", "
      ++ apos ++ "3-4" ++ apos ++ ").",
   "\"day\": \"<string>\"",
   "\"day\": \"1-2\"")

/-- Triple returned for day counts at most 30. -/
def dailyBucket : String × String × String :=
  ("Your schedule should be daily (Day 1, Day 2...).",
   "\"day\": <integer>",
   "\"day\": 1")

/-- Model of `get_schedule_granularity`: the if/elif chain of
src/main.py lines 88-113, on the arbitrary-precision Python integers. -/
def get_schedule_granularity (total_days : Int) : String × String × String :=
  if total_days > 365 then monthlyBucket
  else if 180 < total_days ∧ total_days ≤ 365 then tenDayBucket
  else if 60 < total_days ∧ total_days ≤ 180 then fiveDayBucket
  else if 30 < total_days ∧ total_days ≤ 60 then twoDayBucket
  else dailyBucket

/-! ## JSON escaping for the error payload

Models `json.dumps({"error": "An error occurred: " + str(e)})` with the
default `ensure_ascii=True` behaviour of the Python `json` module. -/

/-- Lowercase hexadecimal digit. -/
def hexDigit (n : Nat) : Char :=
  if n < 10 then Char.ofNat (n + 48) else Char.ofNat (n + 87)

/-- A `\uXXXX` escape with four lowercase hex digits. -/
def uEscape (n : Nat) : List Char :=
  ['\\', 'u', hexDigit (n / 4096 % 16), hexDigit (n / 256 % 16),
   hexDigit (n / 16 % 16), hexDigit (n % 16)]

/-- JSON escaping of one character as performed by `json.dumps` with
`ensure_ascii=True`: short escapes for the common control characters,
`\uXXXX` for other control and all non-ASCII characters (surrogate
pairs above the BMP), the character itself otherwise. -/
def jsonEscapeChar (c : Char) : List Char :=
  if c = '"' then ['\\', '"']
  else if c = '\\' then ['\\', '\\']
  else if c = '\n' then ['\\', 'n']
  else if c = '\r' then ['\\', 'r']
  else if c = '\t' then ['\\', 't']
  else if c.toNat = 8 then ['\\', 'b']
  else if c.toNat = 12 then ['\\', 'f']
  else if c.toNat < 32 then uEscape c.toNat
  else if c.toNat < 127 then [c]
  else if c.toNat < 65536 then uEscape c.toNat
  else uEscape (55296 + (c.toNat - 65536) / 1024) ++ uEscape (56320 + (c.toNat - 65536) % 1024)

/-- Escape every character of a string body. -/
def escapeList : List Char → List Char
  | [] => []
  | c :: rest => jsonEscapeChar c ++ escapeList rest

/-- A JSON string literal: quote, escaped body, quote. -/
def jsonQuote (s : List Char) : List Char :=
  '"' :: (escapeList s ++ ['"'])

/-- Model of `json.dumps({"error": f"An error occurred: {str(e)}"})`
(src/main.py line 174), where `msg` is the text of `str(e)`. -/
def errorPayload (msg : List Char) : List Char :=
  ("\x7b\"error\": ").data ++ jsonQuote (("An error occurred: ").data ++ msg) ++ ("\x7d").data

/-! ## Stream reassembler (src/main.py lines 147-175) -/

/-- One step of the upstream iteration inside the `try` block: either a
chunk whose `text` is the given characters (`None` / empty text behaves
as the empty list), or an exception raised by the upstream call whose
`str(e)` is the given message. -/
inductive Event where
  | chunk : List Char → Event
  | raise : List Char → Event

/-- Model of the test `'\n' in buffer` combined with
`buffer.split('\n', 1)`: `some (line, rest)` splits at the first
newline, `none` means the buffer holds no newline. -/
def splitFirstNewline : List Char → Option (List Char × List Char)
  | [] => none
  | c :: rest =>
    if c = '\n' then some ([], rest)
    else
      match splitFirstNewline rest with
      | none => none
      | some (l, r) => some (c :: l, r)

/-- Fuel-indexed unfolding of the loop
`while '\n' in buffer: line, buffer = buffer.split('\n', 1)`.
Each iteration strictly shrinks the buffer, so `buf.length` fuel always
suffices (see `drainBuffer`). -/
def drainAux : Nat → List Char → List (List Char) × List Char
  | 0, buf => ([], buf)
  | fuel + 1, buf =>
    match splitFirstNewline buf with
    | none => ([], buf)
    | some (line, rest) =>
      let p := drainAux fuel rest
      (line :: p.1, p.2)

/-- Run the split-off loop to completion: all complete lines (in order)
and the remaining newline-free buffer. -/
def drainBuffer (buf : List Char) : List (List Char) × List Char :=
  drainAux buf.length buf

/-- The records yielded for a list of extracted lines: blank lines
(`if line.strip():`) are dropped, every yielded line gets a trailing
newline (`yield line + '\n'`). -/
def emitLines (lines : List (List Char)) : List (List Char) :=
  (lines.filter (fun l => !(stripChars l).isEmpty)).map (fun l => l ++ ['\n'])

/-- Model of the generator body of `stream_json_objects`, parametrised
by the buffer: on a chunk, append its text (skipping falsy/empty text)
and drain complete lines; at end of stream flush a non-blank remainder;
on an exception, yield the single JSON error record and stop. -/
def runEvents : List Char → List Event → List (List Char)
  | buffer, [] => if (stripChars buffer).isEmpty then [] else [buffer ++ ['\n']]
  | buffer, Event.chunk t :: es =>
    if t.isEmpty then runEvents buffer es
    else
      emitLines (drainBuffer (buffer ++ t)).1 ++ runEvents (drainBuffer (buffer ++ t)).2 es
  | _, Event.raise msg :: _ => [errorPayload msg ++ ['\n']]

/-- Model of `stream_json_objects`: the full sequence of records the
generator yields for a given upstream event sequence, starting from the
empty buffer. -/
def stream_json_objects (events : List Event) : List (List Char) :=
  runEvents [] events

/-- The records yielded while chunks are being ingested (everything
except the end-of-stream flush); used to characterise where the final
flush and the error record sit in the output. -/
def chunkOutputs : List Char → List (List Char) → List (List Char)
  | _, [] => []
  | buffer, t :: ts =>
    if t.isEmpty then chunkOutputs buffer ts
    else
      emitLines (drainBuffer (buffer ++ t)).1 ++ chunkOutputs (drainBuffer (buffer ++ t)).2 ts

/-- The buffer contents after ingesting a list of chunks. -/
def finalBuffer : List Char → List (List Char) → List Char
  | buffer, [] => buffer
  | buffer, t :: ts =>
    if t.isEmpty then finalBuffer buffer ts
    else finalBuffer (drainBuffer (buffer ++ t)).2 ts

/-! ## Helper lemmas: characters -/

/-- Evaluation of `Char.ofNat` below the surrogate range. -/
theorem charToNat_ofNat {n : Nat} (h : n < 55296) : (Char.ofNat n).toNat = n := by
  have hv : n.isValidChar := Or.inl h
  unfold Char.ofNat
  rw [dif_pos hv]
  rfl

theorem pyLower_eq_self {c : Char} (h : ¬(65 ≤ c.toNat ∧ c.toNat ≤ 90)) : pyLower c = c := by
  unfold pyLower
  rw [if_neg]
  simpa using h

theorem pyLower_toNat_of_upper {c : Char} (h : 65 ≤ c.toNat ∧ c.toNat ≤ 90) :
    (pyLower c).toNat = c.toNat + 32 := by
  unfold pyLower
  rw [if_pos (by simpa using h)]
  exact charToNat_ofNat (by omega)

theorem pyLower_space {c : Char} (h : isSpaceChar c = true) : pyLower c = c := by
  apply pyLower_eq_self
  simp [isSpaceChar] at h
  omega

theorem pyLower_digit {c : Char} (h : isDigitChar c = true) : pyLower c = c := by
  apply pyLower_eq_self
  simp [isDigitChar] at h
  omega

theorem pyLower_letter_toNat {c : Char} (h : isAsciiLetter c = true) :
    97 ≤ (pyLower c).toNat ∧ (pyLower c).toNat ≤ 122 := by
  simp [isAsciiLetter] at h
  rcases h with h | h
  · rw [pyLower_toNat_of_upper h]
    omega
  · rw [pyLower_eq_self (by omega)]
    omega


theorem charToNat_inj {c d : Char} (h : c.toNat = d.toNat) : c = d := by
  apply Char.ext
  exact UInt32.ext h

theorem char_eq_iff_toNat {c d : Char} : c = d ↔ c.toNat = d.toNat :=
  ⟨fun h => by rw [h], charToNat_inj⟩

theorem underscore_toNat : ('_').toNat = 95 := rfl

theorem newline_toNat : ('\n').toNat = 10 := rfl

theorem digit_not_space {c : Char} (h : isDigitChar c = true) : isSpaceChar c = false := by
  simp [isDigitChar] at h
  simp [isSpaceChar]
  omega

theorem space_not_digit {c : Char} (h : isSpaceChar c = true) : isDigitChar c = false := by
  simp [isSpaceChar] at h
  simp [isDigitChar]
  omega

theorem space_not_word {c : Char} (h : isSpaceChar c = true) : isWordChar c = false := by
  simp [isSpaceChar] at h
  simp [isWordChar, isAsciiLetter, isDigitChar, char_eq_iff_toNat, underscore_toNat]
  omega

theorem pyLower_letter_facts {c : Char} (h : isAsciiLetter c = true) :
    isAsciiLetter (pyLower c) = true ∧ isWordChar (pyLower c) = true ∧
      isSpaceChar (pyLower c) = false ∧ isDigitChar (pyLower c) = false := by
  have hp := pyLower_letter_toNat h
  have h1 : isAsciiLetter (pyLower c) = true := by
    simp [isAsciiLetter]
    omega
  refine ⟨h1, ?_, ?_, ?_⟩
  · simp [isWordChar, h1]
  · simp [isSpaceChar]
    omega
  · simp [isDigitChar]
    omega

/-! ## Helper lemmas: splitting at the first newline -/

theorem splitFirstNewline_cons (c : Char) (rest : List Char) :
    splitFirstNewline (c :: rest) =
      if c = '\n' then some ([], rest)
      else (splitFirstNewline rest).map (fun p => (c :: p.1, p.2)) := by
  simp only [splitFirstNewline]
  by_cases hc : c = '\n'
  · rw [if_pos hc, if_pos hc]
  · rw [if_neg hc, if_neg hc]
    cases splitFirstNewline rest with
    | none => rfl
    | some p => cases p; rfl

theorem splitFirstNewline_none_iff (l : List Char) :
    splitFirstNewline l = none ↔ '\n' ∉ l := by
  induction l with
  | nil => simp [splitFirstNewline]
  | cons c rest ih =>
    rw [splitFirstNewline_cons]
    by_cases hc : c = '\n'
    · subst hc
      simp
    · rw [if_neg hc]
      rw [List.mem_cons]
      cases hsp : splitFirstNewline rest with
      | none =>
        simp only [Option.map_none']
        constructor
        · intro _
          rintro (h1 | h1)
          · exact hc h1.symm
          · exact (ih.mp hsp) h1
        · intro _
          trivial
      | some p =>
        simp only [Option.map_some']
        constructor
        · intro h1
          simp at h1
        · intro h1
          exfalso
          apply h1
          right
          by_contra hn
          rw [(ih.mpr hn : splitFirstNewline rest = none)] at hsp
          simp at hsp
theorem splitFirstNewline_eq_some :
    ∀ {l a b : List Char}, splitFirstNewline l = some (a, b) →
      l = a ++ '\n' :: b ∧ '\n' ∉ a := by
  intro l
  induction l with
  | nil => intro a b h; simp [splitFirstNewline] at h
  | cons c rest ih =>
    intro a b h
    simp only [splitFirstNewline] at h
    by_cases hc : c = '\n'
    · subst hc
      rw [if_pos rfl] at h
      obtain ⟨ha, hb⟩ : ([] : List Char) = a ∧ rest = b := by
        constructor <;> [exact congrArg (·.1) (Option.some.inj h); exact congrArg (·.2) (Option.some.inj h)]
      subst ha
      subst hb
      simp
    · rw [if_neg hc] at h
      cases hsp : splitFirstNewline rest with
      | none => rw [hsp] at h; simp at h
      | some p =>
        obtain ⟨l1, r1⟩ := p
        rw [hsp] at h
        obtain ⟨ha, hb⟩ : c :: l1 = a ∧ r1 = b := by
          constructor <;> [exact congrArg (·.1) (Option.some.inj h); exact congrArg (·.2) (Option.some.inj h)]
        obtain ⟨hrest, hnotin⟩ := ih hsp
        subst ha
        subst hb
        subst hrest
        constructor
        · simp
        · simp only [List.mem_cons]
          rintro (h | h)
          · exact hc h.symm
          · exact hnotin h


theorem splitFirstNewline_append :
    ∀ {x l r : List Char}, splitFirstNewline x = some (l, r) →
      ∀ y, splitFirstNewline (x ++ y) = some (l, r ++ y) := by
  intro x
  induction x with
  | nil => intro l r h y; simp [splitFirstNewline] at h
  | cons c rest ih =>
    intro l r h y
    rw [splitFirstNewline_cons] at h
    rw [List.cons_append, splitFirstNewline_cons]
    by_cases hc : c = '\n'
    · subst hc
      rw [if_pos rfl] at h ⊢
      obtain ⟨ha, hb⟩ : ([] : List Char) = l ∧ rest = r := by
        constructor
        · exact congrArg (fun q => q.1) (Option.some.inj h)
        · exact congrArg (fun q => q.2) (Option.some.inj h)
      subst ha
      subst hb
      rfl
    · rw [if_neg hc] at h ⊢
      rcases hsp : splitFirstNewline rest with _ | p
      · rw [hsp] at h
        simp at h
      · obtain ⟨l1, r1⟩ := p
        rw [hsp] at h
        simp only [Option.map_some'] at h
        obtain ⟨ha, hb⟩ : c :: l1 = l ∧ r1 = r := by
          constructor
          · exact congrArg (fun q => q.1) (Option.some.inj h)
          · exact congrArg (fun q => q.2) (Option.some.inj h)
        subst ha
        subst hb
        rw [ih hsp y]
        rfl

theorem splitFirstNewline_prepend {l : List Char} (h : '\n' ∉ l) (r : List Char) :
    splitFirstNewline (l ++ '\n' :: r) = some (l, r) := by
  induction l with
  | nil => simp [splitFirstNewline]
  | cons c t ih =>
    rw [List.mem_cons] at h
    push_neg at h
    rw [List.cons_append, splitFirstNewline_cons, if_neg (fun hc => h.1 hc.symm)]
    rw [ih h.2]
    rfl

/-! ## Helper lemmas: the drain loop -/

theorem drainAux_congr :
    ∀ (f1 : Nat) {f2 : Nat} {b : List Char}, b.length ≤ f1 → b.length ≤ f2 →
      drainAux f1 b = drainAux f2 b := by
  intro f1
  induction f1 with
  | zero =>
    intro f2 b h1 h2
    have hb : b = [] := List.eq_nil_of_length_eq_zero (Nat.le_zero.mp h1)
    subst hb
    cases f2 with
    | zero => rfl
    | succ f2 => simp [drainAux, splitFirstNewline]
  | succ f1 ih =>
    intro f2 b h1 h2
    cases f2 with
    | zero =>
      have hb : b = [] := List.eq_nil_of_length_eq_zero (Nat.le_zero.mp h2)
      subst hb
      simp [drainAux, splitFirstNewline]
    | succ f2 =>
      cases hsp : splitFirstNewline b with
      | none => simp only [drainAux, hsp]
      | some p =>
        obtain ⟨l, r⟩ := p
        obtain ⟨hb, -⟩ := splitFirstNewline_eq_some hsp
        have hlen : r.length + (l.length + 1) = b.length := by
          subst hb
          simp [List.length_append]
          omega
        simp only [drainAux, hsp]
        rw [@ih f2 r (by omega) (by omega)]

theorem drainBuffer_none {b : List Char} (h : splitFirstNewline b = none) :
    drainBuffer b = ([], b) := by
  unfold drainBuffer
  cases b with
  | nil => rfl
  | cons c rest => simp [drainAux, h]

theorem drainBuffer_some {b l r : List Char} (h : splitFirstNewline b = some (l, r)) :
    drainBuffer b = (l :: (drainBuffer r).1, (drainBuffer r).2) := by
  obtain ⟨hb, -⟩ := splitFirstNewline_eq_some h
  have hlen : b.length = l.length + r.length + 1 := by
    subst hb
    simp [List.length_append]
    omega
  unfold drainBuffer
  rw [hlen]
  simp only [drainAux, h]
  rw [drainAux_congr (l.length + r.length) (by omega) (le_refl _)]

theorem drainBuffer_nil : drainBuffer [] = ([], []) := rfl

theorem drainBuffer_append (x y : List Char) :
    drainBuffer (x ++ y) =
      ((drainBuffer x).1 ++ (drainBuffer ((drainBuffer x).2 ++ y)).1,
       (drainBuffer ((drainBuffer x).2 ++ y)).2) := by
  suffices H : ∀ (n : Nat) (x : List Char), x.length ≤ n → ∀ (y : List Char),
      drainBuffer (x ++ y) =
        ((drainBuffer x).1 ++ (drainBuffer ((drainBuffer x).2 ++ y)).1,
         (drainBuffer ((drainBuffer x).2 ++ y)).2) by
    exact H x.length x le_rfl y
  intro n
  induction n with
  | zero =>
    intro x hx y
    have hb : x = [] := List.eq_nil_of_length_eq_zero (Nat.le_zero.mp hx)
    subst hb
    simp [drainBuffer_nil]
  | succ n ih =>
    intro x hx y
    cases hsp : splitFirstNewline x with
    | none =>
      rw [drainBuffer_none hsp]
      simp
    | some p =>
      obtain ⟨l, r⟩ := p
      have h2 : splitFirstNewline (x ++ y) = some (l, r ++ y) := splitFirstNewline_append hsp y
      rw [drainBuffer_some hsp, drainBuffer_some h2]
      have hr : r.length ≤ n := by
        obtain ⟨hx1, -⟩ := splitFirstNewline_eq_some hsp
        subst hx1
        simp [List.length_append] at hx
        omega
      rw [ih r hr y]
      simp [List.cons_append]

theorem drainBuffer_parts (b : List Char) :
    (∀ l ∈ (drainBuffer b).1, '\n' ∉ l) ∧ '\n' ∉ (drainBuffer b).2 := by
  suffices H : ∀ (n : Nat) (b : List Char), b.length ≤ n →
      (∀ l ∈ (drainBuffer b).1, '\n' ∉ l) ∧ '\n' ∉ (drainBuffer b).2 by
    exact H b.length b le_rfl
  intro n
  induction n with
  | zero =>
    intro b hb
    have h0 : b = [] := List.eq_nil_of_length_eq_zero (Nat.le_zero.mp hb)
    subst h0
    simp [drainBuffer_nil]
  | succ n ih =>
    intro b hb
    cases hsp : splitFirstNewline b with
    | none =>
      rw [drainBuffer_none hsp]
      exact ⟨by simp, (splitFirstNewline_none_iff b).mp hsp⟩
    | some p =>
      obtain ⟨l, r⟩ := p
      obtain ⟨hb1, hl⟩ := splitFirstNewline_eq_some hsp
      rw [drainBuffer_some hsp]
      have hr : r.length ≤ n := by
        subst hb1
        simp [List.length_append] at hb
        omega
      obtain ⟨ih1, ih2⟩ := ih r hr
      refine ⟨?_, ih2⟩
      intro l1 hl1
      rw [List.mem_cons] at hl1
      rcases hl1 with h1 | h1
      · subst h1
        exact hl
      · exact ih1 l1 h1

/-! ## Helper lemmas: stripping -/

theorem dropWhile_append_of_all {α : Type} {p : α → Bool} {l1 l2 : List α}
    (h : ∀ c ∈ l1, p c = true) :
    (l1 ++ l2).dropWhile p = l2.dropWhile p := by
  induction l1 with
  | nil => rfl
  | cons c t ih =>
    rw [List.cons_append, List.dropWhile_cons, if_pos (h c (by simp))]
    exact ih (fun d hd => h d (by simp [hd]))

theorem mem_dropWhile_imp_mem {α : Type} {p : α → Bool} {l : List α} {c : α}
    (h : c ∈ l.dropWhile p) : c ∈ l :=
  (List.dropWhile_sublist p).mem h

theorem lstrip_append_space {ws l : List Char} (h : ∀ c ∈ ws, isSpaceChar c = true) :
    lstrip (ws ++ l) = lstrip l :=
  dropWhile_append_of_all h

theorem rstrip_append_space {l ws : List Char} (h : ∀ c ∈ ws, isSpaceChar c = true) :
    rstrip (l ++ ws) = rstrip l := by
  unfold rstrip
  rw [List.reverse_append, dropWhile_append_of_all (fun c hc => h c (List.mem_reverse.mp hc))]

theorem lstrip_cons_of_not {c : Char} {l : List Char} (h : isSpaceChar c = false) :
    lstrip (c :: l) = c :: l := by
  unfold lstrip
  rw [List.dropWhile_cons, if_neg (by simp [h])]

theorem rstrip_append_singleton {l : List Char} {c : Char} (h : isSpaceChar c = false) :
    rstrip (l ++ [c]) = l ++ [c] := by
  unfold rstrip
  rw [List.reverse_append]
  simp only [List.reverse_cons, List.reverse_nil, List.nil_append, List.singleton_append]
  rw [List.dropWhile_cons, if_neg (by simp [h])]
  simp

theorem lstrip_cons_of_space {c : Char} {l : List Char} (h : isSpaceChar c = true) :
    lstrip (c :: l) = lstrip l := by
  unfold lstrip
  rw [List.dropWhile_cons, if_pos (by simp [h])]

theorem lstrip_append (l m : List Char) :
    lstrip (l ++ m) = if lstrip l = [] then lstrip m else lstrip l ++ m := by
  induction l with
  | nil => simp [lstrip]
  | cons c t ih =>
    cases hc : isSpaceChar c with
    | true =>
      rw [List.cons_append, lstrip_cons_of_space hc, lstrip_cons_of_space hc]
      exact ih
    | false =>
      rw [List.cons_append, lstrip_cons_of_not hc, lstrip_cons_of_not hc]
      rw [if_neg (by simp)]
      rfl

theorem dropWhile_all_nil {α : Type} {p : α → Bool} {l : List α}
    (h : ∀ c ∈ l, p c = true) : l.dropWhile p = [] :=
  List.dropWhile_eq_nil_iff.mpr h

theorem stripChars_pad {ws1 l ws3 : List Char}
    (h1 : ∀ c ∈ ws1, isSpaceChar c = true) (h3 : ∀ c ∈ ws3, isSpaceChar c = true) :
    stripChars (ws1 ++ l ++ ws3) = stripChars l := by
  unfold stripChars
  rw [List.append_assoc, lstrip_append_space h1, lstrip_append]
  by_cases h0 : lstrip l = []
  · rw [if_pos h0, h0]
    have : lstrip ws3 = [] := dropWhile_all_nil h3
    rw [this]
  · rw [if_neg h0, rstrip_append_space h3]

theorem stripChars_append_space {l ws : List Char} (h : ∀ c ∈ ws, isSpaceChar c = true) :
    stripChars (l ++ ws) = stripChars l := by
  have := @stripChars_pad [] l ws (by simp) h
  simpa using this

theorem stripChars_eq_nil_iff (s : List Char) :
    stripChars s = [] ↔ ∀ c ∈ s, isSpaceChar c = true := by
  constructor
  · intro h c hc
    unfold stripChars rstrip at h
    rw [List.reverse_eq_nil_iff] at h
    have hall : ∀ c ∈ (lstrip s).reverse, isSpaceChar c = true :=
      List.dropWhile_eq_nil_iff.mp h
    have hall2 : ∀ c ∈ lstrip s, isSpaceChar c = true :=
      fun c hc => hall c (List.mem_reverse.mpr hc)
    have hsplit := List.takeWhile_append_dropWhile isSpaceChar s
    rw [← hsplit] at hc
    rcases List.mem_append.mp hc with h2 | h2
    · exact List.mem_takeWhile_imp h2
    · exact hall2 c h2
  · intro h
    have h1 : lstrip s = [] := dropWhile_all_nil h
    unfold stripChars
    rw [h1]
    rfl

theorem stripChars_ne_nil_of_mem {s : List Char} {c : Char}
    (hc : c ∈ s) (h : isSpaceChar c = false) : stripChars s ≠ [] := by
  intro h0
  have := (stripChars_eq_nil_iff s).mp h0 c hc
  rw [this] at h
  exact Bool.noConfusion h

theorem mem_stripChars {c : Char} {s : List Char} (h : c ∈ stripChars s) : c ∈ s := by
  unfold stripChars rstrip at h
  rw [List.mem_reverse] at h
  have h2 := mem_dropWhile_imp_mem h
  rw [List.mem_reverse] at h2
  exact mem_dropWhile_imp_mem h2

/-! ## Helper lemmas: takeWhile -/

theorem takeWhile_all_append {α : Type} {p : α → Bool} {a b : List α}
    (h : ∀ c ∈ a, p c = true) :
    (a ++ b).takeWhile p = a ++ b.takeWhile p := by
  induction a with
  | nil => rfl
  | cons c t ih =>
    rw [List.cons_append, List.takeWhile_cons, if_pos (h c (by simp)), List.cons_append,
      ih (fun d hd => h d (by simp [hd]))]

theorem takeWhile_nil_of_head {α : Type} {p : α → Bool} {c : α} {l : List α}
    (h : p c = false) : (c :: l).takeWhile p = [] := by
  rw [List.takeWhile_cons, if_neg (by simp [h])]

theorem takeWhile_all_eq {α : Type} {p : α → Bool} {l : List α}
    (h : ∀ c ∈ l, p c = true) : l.takeWhile p = l := by
  induction l with
  | nil => rfl
  | cons c t ih =>
    rw [List.takeWhile_cons, if_pos (h c (by simp)), ih (fun d hd => h d (by simp [hd]))]

/-! ## Helper lemmas: the stream reassembler -/

theorem emitLines_append (a b : List (List Char)) :
    emitLines (a ++ b) = emitLines a ++ emitLines b := by
  simp [emitLines, List.filter_append]

theorem runEvents_chunks (ts : List (List Char)) :
    ∀ b, runEvents b (ts.map Event.chunk) =
      chunkOutputs b ts ++ runEvents (finalBuffer b ts) [] := by
  induction ts with
  | nil =>
    intro b
    simp [chunkOutputs, finalBuffer]
  | cons t rest ih =>
    intro b
    cases ht : t.isEmpty with
    | true =>
      simp only [List.map_cons, runEvents, chunkOutputs, finalBuffer, ht, if_true]
      exact ih b
    | false =>
      simp only [List.map_cons, runEvents, chunkOutputs, finalBuffer, ht, Bool.false_eq_true,
        if_false]
      rw [ih ((drainBuffer (b ++ t)).2), List.append_assoc]
      simp only [runEvents]

theorem runEvents_chunks_raise (ts : List (List Char)) (msg : List Char) (es : List Event) :
    ∀ b, runEvents b (ts.map Event.chunk ++ Event.raise msg :: es) =
      chunkOutputs b ts ++ [errorPayload msg ++ ['\n']] := by
  induction ts with
  | nil =>
    intro b
    simp [runEvents, chunkOutputs]
  | cons t rest ih =>
    intro b
    cases ht : t.isEmpty with
    | true =>
      simp only [List.map_cons, List.cons_append, runEvents, chunkOutputs, ht, if_true]
      exact ih b
    | false =>
      simp only [List.map_cons, List.cons_append, runEvents, chunkOutputs, ht,
        Bool.false_eq_true, if_false, List.append_eq]
      rw [ih ((drainBuffer (b ++ t)).2), List.append_assoc]

theorem chunks_flatten (ts : List (List Char)) :
    ∀ b, splitFirstNewline b = none →
      chunkOutputs b ts = emitLines (drainBuffer (b ++ ts.flatten)).1 ∧
      finalBuffer b ts = (drainBuffer (b ++ ts.flatten)).2 := by
  induction ts with
  | nil =>
    intro b hb
    simp [chunkOutputs, finalBuffer, drainBuffer_none hb, emitLines]
  | cons t rest ih =>
    intro b hb
    cases ht : t.isEmpty with
    | true =>
      have ht0 : t = [] := List.isEmpty_iff.mp ht
      subst ht0
      simp only [chunkOutputs, finalBuffer, if_true, List.flatten_cons, List.nil_append]
      exact ih b hb
    | false =>
      have hb2 : splitFirstNewline (drainBuffer (b ++ t)).2 = none :=
        (splitFirstNewline_none_iff _).mpr (drainBuffer_parts (b ++ t)).2
      obtain ⟨ih1, ih2⟩ := ih ((drainBuffer (b ++ t)).2) hb2
      have happ := drainBuffer_append (b ++ t) rest.flatten
      constructor
      · simp only [chunkOutputs, ht, Bool.false_eq_true, if_false]
        rw [ih1, List.flatten_cons, ← List.append_assoc, happ, emitLines_append]
      · simp only [finalBuffer, ht, Bool.false_eq_true, if_false]
        rw [ih2, List.flatten_cons, ← List.append_assoc, happ]

/-! ## Helper lemmas: the error payload -/

theorem hexDigit_ne_newline : ∀ m, m < 16 → hexDigit m ≠ '\n' := by decide

theorem uEscape_no_newline (n : Nat) : '\n' ∉ uEscape n := by
  unfold uEscape
  intro h
  rcases List.mem_cons.mp h with h | h
  · exact absurd h (by decide)
  rcases List.mem_cons.mp h with h | h
  · exact absurd h (by decide)
  rcases List.mem_cons.mp h with h | h
  · exact hexDigit_ne_newline _ (Nat.mod_lt _ (by norm_num)) h.symm
  rcases List.mem_cons.mp h with h | h
  · exact hexDigit_ne_newline _ (Nat.mod_lt _ (by norm_num)) h.symm
  rcases List.mem_cons.mp h with h | h
  · exact hexDigit_ne_newline _ (Nat.mod_lt _ (by norm_num)) h.symm
  rcases List.mem_cons.mp h with h | h
  · exact hexDigit_ne_newline _ (Nat.mod_lt _ (by norm_num)) h.symm
  simp at h

set_option maxHeartbeats 1000000 in
theorem jsonEscapeChar_no_newline (c : Char) : '\n' ∉ jsonEscapeChar c := by
  intro h
  unfold jsonEscapeChar at h
  split_ifs at h with h1 h2 h3 h4 h5 h6 h7 h8 h9 h10
  · exact absurd h (by decide)
  · exact absurd h (by decide)
  · exact absurd h (by decide)
  · exact absurd h (by decide)
  · exact absurd h (by decide)
  · exact absurd h (by decide)
  · exact absurd h (by decide)
  · exact uEscape_no_newline _ h
  · rw [List.mem_singleton] at h
    exact h3 h.symm
  · exact uEscape_no_newline _ h
  · rcases List.mem_append.mp h with h | h
    · exact uEscape_no_newline _ h
    · exact uEscape_no_newline _ h

theorem mem_escapeList {x : Char} :
    ∀ {s : List Char}, x ∈ escapeList s → ∃ c ∈ s, x ∈ jsonEscapeChar c := by
  intro s
  induction s with
  | nil => intro h; simp [escapeList] at h
  | cons c rest ih =>
    intro h
    unfold escapeList at h
    rcases List.mem_append.mp h with h | h
    · exact ⟨c, by simp, h⟩
    · obtain ⟨d, hd, hx⟩ := ih h
      exact ⟨d, by simp [hd], hx⟩

theorem errorPayload_no_newline (msg : List Char) : '\n' ∉ errorPayload msg := by
  unfold errorPayload jsonQuote
  intro h
  rcases List.mem_append.mp h with h | h
  · rcases List.mem_append.mp h with h | h
    · exact absurd h (by decide)
    · rcases List.mem_cons.mp h with h | h
      · exact absurd h (by decide)
      · rcases List.mem_append.mp h with h | h
        · obtain ⟨c, _, hmem⟩ := mem_escapeList h
          exact jsonEscapeChar_no_newline c hmem
        · exact absurd h (by decide)
  · exact absurd h (by decide)

theorem newline_is_space : isSpaceChar '\n' = true := rfl

theorem stripChars_append_newline (l : List Char) :
    stripChars (l ++ ['\n']) = stripChars l := by
  apply stripChars_append_space
  intro c hc
  rw [List.mem_singleton] at hc
  subst hc
  rfl

/-! ## Claim theorems: stream reassembler -/

/-- C1: for every sequence of ingested fragments, the reassembler emits
a line only once a full newline-terminated unit is present, and no
partial data is lost across fragment boundaries.  Part 1: the output
depends only on the concatenation of the fragments, not on where the
fragment boundaries fall.  Part 2: the output is exactly the records
emitted while ingesting (each a complete newline-terminated unit)
followed, at end of stream, by the remaining buffer content emitted
exactly once as a final record when it is non-blank, and by nothing
when it is blank. -/
theorem claim1_stream_reassembly_invariant :
    (∀ fs gs : List (List Char), fs.flatten = gs.flatten →
      stream_json_objects (fs.map Event.chunk) = stream_json_objects (gs.map Event.chunk)) ∧
    (∀ fs : List (List Char),
      stream_json_objects (fs.map Event.chunk) =
        chunkOutputs [] fs ++
          (if (stripChars (finalBuffer [] fs)).isEmpty then []
           else [finalBuffer [] fs ++ ['\n']])) := by
  have hnil : splitFirstNewline ([] : List Char) = none := rfl
  have key : ∀ fs : List (List Char),
      stream_json_objects (fs.map Event.chunk) =
        emitLines (drainBuffer fs.flatten).1 ++
          (if (stripChars (drainBuffer fs.flatten).2).isEmpty then []
           else [(drainBuffer fs.flatten).2 ++ ['\n']]) := by
    intro fs
    unfold stream_json_objects
    rw [runEvents_chunks]
    obtain ⟨h1, h2⟩ := chunks_flatten fs [] hnil
    rw [h1, h2]
    simp only [List.nil_append, runEvents]
  constructor
  · intro fs gs h
    rw [key fs, key gs, h]
  · intro fs
    unfold stream_json_objects
    rw [runEvents_chunks]
    simp only [runEvents]

theorem claim1_witness :
    stream_json_objects [Event.chunk (("ab\nc").data)] =
      stream_json_objects [Event.chunk (("ab").data), Event.chunk (("\nc").data)] := by
  have h := claim1_stream_reassembly_invariant.1
    [("ab\nc").data] [("ab").data, ("\nc").data] (by decide)
  simpa using h

/-- C2: any upstream failure (modelled as a `raise` event anywhere in
the upstream iteration) makes the generator yield the records produced
so far followed by exactly one final JSON error record, with nothing
after it, regardless of what the upstream would have produced next. -/
theorem claim2_error_record_terminates_stream
    (fs : List (List Char)) (msg : List Char) (es : List Event) :
    stream_json_objects (fs.map Event.chunk ++ Event.raise msg :: es) =
      chunkOutputs [] fs ++ [errorPayload msg ++ ['\n']] :=
  runEvents_chunks_raise fs msg es []

/-- C7: ingesting the fragment "abc\ndef" and then the fragment "\nghi"
yields the line "abc", then "def", then on the end-of-stream flush
"ghi" (each record carries the re-appended trailing newline), and
nothing else. -/
theorem claim7_concrete_fragments :
    stream_json_objects [Event.chunk (("abc\ndef").data), Event.chunk (("\nghi").data)] =
      [("abc\n").data, ("def\n").data, ("ghi\n").data] := by
  decide

/-- C3 counterexample: the claim says the yielded record equals the
substring before the first newline with surrounding whitespace removed;
on the fragment " a \nx\n" the code yields the record " a \n" with the
surrounding whitespace intact, which differs from the trimmed form. -/
theorem claim3_counterexample :
    stream_json_objects [Event.chunk ((" a \nx\n").data)] = [(" a \n").data, ("x\n").data] ∧
    (" a \n").data ≠ stripChars ((" a ").data) ++ ['\n'] := by
  constructor
  · decide
  · decide

/-- C3 amended: yielded records are untrimmed.  When the buffer holds a
newline, the yielded record is the substring before the first newline
unchanged (trimming is used only to discard blank lines), with a
newline re-appended; a single fragment with no newline followed by
end of stream yields exactly one record equal to the untrimmed fragment
with a newline appended, provided the fragment is non-blank. -/
theorem claim3_records_untrimmed :
    (∀ l rest : List Char, '\n' ∉ l → stripChars l ≠ [] →
      ∃ out, stream_json_objects [Event.chunk (l ++ '\n' :: rest)] = (l ++ ['\n']) :: out) ∧
    (∀ f : List Char, f ≠ [] → '\n' ∉ f → stripChars f ≠ [] →
      stream_json_objects [Event.chunk f] = [f ++ ['\n']]) := by
  constructor
  · intro l rest hnl hblank
    unfold stream_json_objects
    have hne : (l ++ '\n' :: rest).isEmpty = false := by
      rw [List.isEmpty_eq_false]
      simp
    simp only [runEvents, hne, Bool.false_eq_true, if_false, List.nil_append]
    have hsp : splitFirstNewline (l ++ '\n' :: rest) = some (l, rest) :=
      splitFirstNewline_prepend hnl rest
    rw [drainBuffer_some hsp]
    have hfl : (stripChars l).isEmpty = false := List.isEmpty_eq_false.mpr hblank
    refine ⟨emitLines (drainBuffer rest).1 ++
      runEvents (drainBuffer rest).2 [], ?_⟩
    simp only [emitLines, List.filter_cons, hfl, Bool.not_false, if_true, List.map_cons,
      List.cons_append, runEvents]
  · intro f hne hnl hblank
    unfold stream_json_objects
    have hie : f.isEmpty = false := List.isEmpty_eq_false.mpr hne
    simp only [runEvents, hie, Bool.false_eq_true, if_false, List.nil_append]
    rw [drainBuffer_none ((splitFirstNewline_none_iff f).mpr hnl)]
    simp only [emitLines, List.filter_nil, List.map_nil, List.nil_append, runEvents]
    rw [List.isEmpty_eq_false.mpr hblank]
    simp

theorem claim3_witness :
    stream_json_objects [Event.chunk (("hi").data)] = [("hi").data ++ ['\n']] :=
  claim3_records_untrimmed.2 (("hi").data) (by decide) (by decide) (by decide)

/-- C8: every record the reassembler ever yields is non-blank: blank
extracted lines are discarded by the `if line.strip():` guard and a
blank remaining buffer at end of stream produces no final record; a
concrete run with blank lines and a blank trailing buffer yields only
the non-blank record. -/
theorem claim8_blank_records_discarded :
    (∀ (events : List Event) (r : List Char), r ∈ stream_json_objects events →
      stripChars r ≠ []) ∧
    stream_json_objects [Event.chunk (("  \n\nx\n \t ").data)] = [("x\n").data] := by
  have main : ∀ (events : List Event) (b r : List Char), r ∈ runEvents b events →
      stripChars r ≠ [] := by
    intro events
    induction events with
    | nil =>
      intro b r hr
      simp only [runEvents] at hr
      by_cases hb : (stripChars b).isEmpty = true
      · rw [if_pos hb] at hr
        simp at hr
      · rw [if_neg hb] at hr
        rw [List.mem_singleton] at hr
        subst hr
        rw [stripChars_append_newline]
        intro h0
        exact hb (by rw [h0]; rfl)
    | cons e rest ih =>
      cases e with
      | chunk t =>
        intro b r hr
        cases ht : t.isEmpty with
        | true =>
          rw [show runEvents b (Event.chunk t :: rest) = runEvents b rest from by
            simp [runEvents, ht]] at hr
          exact ih b r hr
        | false =>
          rw [show runEvents b (Event.chunk t :: rest) =
              emitLines (drainBuffer (b ++ t)).1 ++
                runEvents (drainBuffer (b ++ t)).2 rest from by
            simp [runEvents, ht]] at hr
          rcases List.mem_append.mp hr with h | h
          · unfold emitLines at h
            obtain ⟨l, hl, hrl⟩ := List.mem_map.mp h
            have hfil := (List.mem_filter.mp hl).2
            have hl0 : stripChars l ≠ [] := by
              intro h0
              rw [h0] at hfil
              simp at hfil
            subst hrl
            rw [stripChars_append_newline]
            exact hl0
          · exact ih _ r h
      | raise msg =>
        intro b r hr
        simp only [runEvents, List.mem_singleton] at hr
        subst hr
        rw [stripChars_append_newline]
        apply stripChars_ne_nil_of_mem (c := Char.ofNat 123)
        · unfold errorPayload
          apply List.mem_append.mpr
          left
          apply List.mem_append.mpr
          left
          decide
        · decide
  exact ⟨fun events r hr => main events [] r hr, by decide⟩

theorem claim8_witness : stripChars (("y\n").data) ≠ [] :=
  claim8_blank_records_discarded.1 [Event.chunk (("y\n").data)] (("y\n").data) (by decide)

/-- C9: every record the generator yields, whether a drained line, the
end-of-stream flush, or the error record, consists of a newline-free
unit followed by exactly one trailing newline character. -/
theorem claim9_single_trailing_newline
    (events : List Event) (r : List Char) (h : r ∈ stream_json_objects events) :
    ∃ u, r = u ++ ['\n'] ∧ '\n' ∉ u := by
  have main : ∀ (events : List Event) (b r : List Char), '\n' ∉ b →
      r ∈ runEvents b events → ∃ u, r = u ++ ['\n'] ∧ '\n' ∉ u := by
    intro events
    induction events with
    | nil =>
      intro b r hb hr
      simp only [runEvents] at hr
      by_cases h0 : (stripChars b).isEmpty = true
      · rw [if_pos h0] at hr
        simp at hr
      · rw [if_neg h0] at hr
        rw [List.mem_singleton] at hr
        exact ⟨b, hr, hb⟩
    | cons e rest ih =>
      cases e with
      | chunk t =>
        intro b r hb hr
        cases ht : t.isEmpty with
        | true =>
          rw [show runEvents b (Event.chunk t :: rest) = runEvents b rest from by
            simp [runEvents, ht]] at hr
          exact ih b r hb hr
        | false =>
          rw [show runEvents b (Event.chunk t :: rest) =
              emitLines (drainBuffer (b ++ t)).1 ++
                runEvents (drainBuffer (b ++ t)).2 rest from by
            simp [runEvents, ht]] at hr
          rcases List.mem_append.mp hr with h1 | h1
          · unfold emitLines at h1
            obtain ⟨l, hl, hrl⟩ := List.mem_map.mp h1
            have hmem := (List.mem_filter.mp hl).1
            exact ⟨l, hrl.symm, (drainBuffer_parts (b ++ t)).1 l hmem⟩
          · exact ih _ r (drainBuffer_parts (b ++ t)).2 h1
      | raise msg =>
        intro b r _ hr
        simp only [runEvents, List.mem_singleton] at hr
        exact ⟨errorPayload msg, hr, errorPayload_no_newline msg⟩
  exact main events [] r (by simp) h

theorem claim9_witness : ∃ u, ("x\n").data = u ++ ['\n'] ∧ '\n' ∉ u :=
  claim9_single_trailing_newline [Event.chunk (("x\n").data)] (("x\n").data) (by decide)

/-! ## Claim theorems: granularity selector -/

theorem gran_spec (d : Int) :
    get_schedule_granularity d =
      if 365 < d then monthlyBucket
      else if 180 < d then tenDayBucket
      else if 60 < d then fiveDayBucket
      else if 30 < d then twoDayBucket
      else dailyBucket := by
  unfold get_schedule_granularity
  split_ifs <;> first | rfl | omega

set_option maxHeartbeats 1000000 in
/-- C4: the granularity selector picks its bucket by range with the
stated closed/open boundaries: 60 falls in the 2-day bucket, 61 in the
5-day bucket, 365 in the 10-day bucket, 366 in the monthly bucket; any
day count at most 30 yields the daily bucket whose field shape is the
integer form with example value 1; every other bucket uses the string
field shape; and on non-negative day counts the five ranges are
mutually exclusive and exhaustive, characterised by the five
equivalences. -/
theorem claim4_granularity_boundaries :
    get_schedule_granularity 60 = twoDayBucket ∧
    get_schedule_granularity 61 = fiveDayBucket ∧
    get_schedule_granularity 365 = tenDayBucket ∧
    get_schedule_granularity 366 = monthlyBucket ∧
    (∀ d : Int, d ≤ 30 → get_schedule_granularity d = dailyBucket) ∧
    dailyBucket.2.1 = "\"day\": <integer>" ∧
    dailyBucket.2.2 = "\"day\": 1" ∧
    (∀ d : Int, 30 < d → (get_schedule_granularity d).2.1 = "\"day\": \"<string>\"") ∧
    (∀ d : Int, 0 ≤ d →
      (get_schedule_granularity d = monthlyBucket ↔ 365 < d) ∧
      (get_schedule_granularity d = tenDayBucket ↔ 180 < d ∧ d ≤ 365) ∧
      (get_schedule_granularity d = fiveDayBucket ↔ 60 < d ∧ d ≤ 180) ∧
      (get_schedule_granularity d = twoDayBucket ↔ 30 < d ∧ d ≤ 60) ∧
      (get_schedule_granularity d = dailyBucket ↔ d ≤ 30)) := by
  refine ⟨by decide, by decide, by decide, by decide, ?_, rfl, rfl, ?_, ?_⟩
  · intro d hd
    rw [gran_spec]
    split_ifs <;> first | rfl | (exfalso; omega)
  · intro d hd
    rw [gran_spec]
    split_ifs <;> first | rfl | (exfalso; omega)
  · intro d hd
    rw [gran_spec]
    split_ifs with h1 h2 h3 h4 <;>
      refine ⟨?_, ?_, ?_, ?_, ?_⟩ <;> constructor <;> intro h <;>
        first | rfl | omega | (exact absurd h (by decide)) | (exfalso; omega)

theorem claim4_witness :
    get_schedule_granularity 7 = dailyBucket ∧
    (get_schedule_granularity 100).2.1 = "\"day\": \"<string>\"" := by
  constructor
  · exact claim4_granularity_boundaries.2.2.2.2.1 7 (by decide)
  · exact claim4_granularity_boundaries.2.2.2.2.2.2.2.1 100 (by decide)

/-- C10: `get_schedule_granularity` is total over all integers, not
only non-negative ones: every day count at most 30, including zero and
negative values, falls into the daily bucket (integer field shape,
example value 1); `parse_duration_to_days` can indeed produce a
negative day count, for example on the input "-5". -/
theorem claim10_daily_bucket_total :
    (∀ d : Int, d ≤ 30 → get_schedule_granularity d = dailyBucket) ∧
    parse_duration_to_days ("-5") = -5 ∧
    get_schedule_granularity (parse_duration_to_days ("-5")) = dailyBucket ∧
    get_schedule_granularity 0 = dailyBucket ∧
    get_schedule_granularity (-17) = dailyBucket ∧
    dailyBucket.2.1 = "\"day\": <integer>" ∧
    dailyBucket.2.2 = "\"day\": 1" := by
  refine ⟨?_, by decide, by decide, by decide, by decide, rfl, rfl⟩
  intro d hd
  rw [gran_spec]
  split_ifs <;> first | rfl | (exfalso; omega)

theorem claim10_witness : get_schedule_granularity (-7) = dailyBucket :=
  claim10_daily_bucket_total.1 (-7) (by decide)

/-! ## Helper lemmas: the duration parser -/

theorem map_pyLower_id {l : List Char} (h : ∀ c ∈ l, pyLower c = c) :
    l.map pyLower = l := by
  induction l with
  | nil => rfl
  | cons c t ih =>
    rw [List.map_cons, h c (by simp), ih (fun d hd => h d (by simp [hd]))]

theorem stripChars_eq_self {s : List Char}
    (hhead : ∃ c t, s = c :: t ∧ isSpaceChar c = false)
    (hlast : ∃ L b, s = L ++ [b] ∧ isSpaceChar b = false) : stripChars s = s := by
  obtain ⟨c, t, hs, hc⟩ := hhead
  obtain ⟨L, b, hs2, hb⟩ := hlast
  unfold stripChars
  rw [hs, lstrip_cons_of_not hc, ← hs, hs2, rstrip_append_singleton hb]

theorem matchNumUnit_exact {ds ws2 : List Char} {u0 : Char} {urest : List Char}
    (hds : ds ≠ []) (hd : ∀ c ∈ ds, isDigitChar c = true)
    (hws : ∀ c ∈ ws2, isSpaceChar c = true)
    (hw0 : isWordChar u0 = true) (hd0 : isDigitChar u0 = false) (hs0 : isSpaceChar u0 = false)
    (hur : ∀ c ∈ urest, isWordChar c = true) :
    matchNumUnit (ds ++ ws2 ++ (u0 :: urest)) = some (ds, u0 :: urest) := by
  have htail : (ws2 ++ u0 :: urest).takeWhile isDigitChar = [] := by
    cases ws2 with
    | nil =>
      rw [List.nil_append]
      exact takeWhile_nil_of_head hd0
    | cons w wt =>
      rw [List.cons_append]
      exact takeWhile_nil_of_head (space_not_digit (hws w (by simp)))
  have htd : (ds ++ ws2 ++ (u0 :: urest)).takeWhile isDigitChar = ds := by
    rw [List.append_assoc, takeWhile_all_append hd, htail, List.append_nil]
  have hdrop : (ds ++ ws2 ++ (u0 :: urest)).drop ds.length = ws2 ++ u0 :: urest := by
    rw [List.append_assoc]
    exact List.drop_left ds _
  have htake : (ds ++ ws2 ++ (u0 :: urest)).take ds.length = ds := by
    rw [List.append_assoc]
    exact List.take_left ds _
  have hsw : (ws2 ++ u0 :: urest).takeWhile isSpaceChar = ws2 := by
    rw [takeWhile_all_append hws, takeWhile_nil_of_head hs0, List.append_nil]
  have hdrop2 : (ws2 ++ u0 :: urest).drop ws2.length = u0 :: urest := List.drop_left ws2 _
  have huw : (u0 :: urest).takeWhile isWordChar = u0 :: urest := by
    apply takeWhile_all_eq
    intro c hc
    rcases List.mem_cons.mp hc with h | h
    · subst h
      exact hw0
    · exact hur c h
  have htsplit : trySplit (ds ++ ws2 ++ (u0 :: urest)) ds.length ws2.length =
      some (ds, u0 :: urest) := by
    unfold trySplit
    rw [hdrop, hdrop2]
    simp only [hw0, if_true, htake, huw]
  have hts : trySpaces (ds ++ ws2 ++ (u0 :: urest)) ds.length ws2.length =
      some (ds, u0 :: urest) := by
    cases hw2 : ws2.length with
    | zero =>
      rw [hw2] at htsplit
      simp only [trySpaces]
      exact htsplit
    | succ j =>
      rw [hw2] at htsplit
      simp only [trySpaces, htsplit]
  obtain ⟨k, hk⟩ : ∃ k, ds.length = k + 1 := by
    cases ds with
    | nil => exact absurd rfl hds
    | cons a b => exact ⟨b.length, rfl⟩
  unfold matchNumUnit
  rw [htd, hk]
  simp only [tryDigits]
  rw [← hk, hdrop, hsw, hts]

/-! ## Claim theorems: duration parser -/

/-- C5: for every input of the shape optional whitespace, a nonempty
run of digits, optional whitespace, a nonempty alphabetic unit word,
optional trailing whitespace, the parser returns the captured integer
scaled by the unit: unchanged when the lowercased unit contains "day",
times 7 for "week", times 30 for "month", times 365 for "year" (checked
in that order), and unscaled for any other unit word. -/
theorem claim5_unit_scaling (ws1 ds ws2 u ws3 : List Char)
    (hds : ds ≠ []) (hd : ∀ c ∈ ds, isDigitChar c = true)
    (hu : u ≠ []) (hul : ∀ c ∈ u, isAsciiLetter c = true)
    (h1 : ∀ c ∈ ws1, isSpaceChar c = true)
    (h2 : ∀ c ∈ ws2, isSpaceChar c = true)
    (h3 : ∀ c ∈ ws3, isSpaceChar c = true) :
    parse_duration_to_days (String.mk (ws1 ++ ds ++ ws2 ++ u ++ ws3)) =
      (if containsSub (("day").data) (u.map pyLower) then (digitsToNat ds : Int)
       else if containsSub (("week").data) (u.map pyLower) then (digitsToNat ds : Int) * 7
       else if containsSub (("month").data) (u.map pyLower) then (digitsToNat ds : Int) * 30
       else if containsSub (("year").data) (u.map pyLower) then (digitsToNat ds : Int) * 365
       else (digitsToNat ds : Int)) := by
  obtain ⟨c, ut, rfl⟩ : ∃ c ut, u = c :: ut := by
    cases u with
    | nil => exact absurd rfl hu
    | cons c ut => exact ⟨c, ut, rfl⟩
  have hlfacts := fun (y : Char) (hy : y ∈ c :: ut) => pyLower_letter_facts (hul y hy)
  have hmapfix : (ws1 ++ ds ++ ws2 ++ (c :: ut) ++ ws3).map pyLower =
      ws1 ++ (ds ++ ws2 ++ (c :: ut).map pyLower) ++ ws3 := by
    simp only [List.map_append]
    rw [map_pyLower_id (fun x hx => pyLower_space (h1 x hx)),
      map_pyLower_id (fun x hx => pyLower_digit (hd x hx)),
      map_pyLower_id (fun x hx => pyLower_space (h2 x hx)),
      map_pyLower_id (fun x hx => pyLower_space (h3 x hx))]
    simp [List.append_assoc]
  have hcore : stripChars (ds ++ ws2 ++ (c :: ut).map pyLower) =
      ds ++ ws2 ++ (c :: ut).map pyLower := by
    apply stripChars_eq_self
    · obtain ⟨d0, dt, rfl⟩ : ∃ d0 dt, ds = d0 :: dt := by
        cases ds with
        | nil => exact absurd rfl hds
        | cons d0 dt => exact ⟨d0, dt, rfl⟩
      exact ⟨d0, dt ++ ws2 ++ (c :: ut).map pyLower, by simp,
        digit_not_space (hd d0 (by simp))⟩
    · rcases List.eq_nil_or_concat ((c :: ut).map pyLower) with hnil | ⟨L, b, hL⟩
      · simp at hnil
      · rw [List.concat_eq_append] at hL
        refine ⟨ds ++ ws2 ++ L, b, by rw [hL]; simp [List.append_assoc], ?_⟩
        have hbmem : b ∈ (c :: ut).map pyLower := by
          rw [hL]
          exact List.mem_append.mpr (Or.inr (by simp))
        obtain ⟨y, hy, hyb⟩ := List.mem_map.mp hbmem
        rw [← hyb]
        exact (hlfacts y hy).2.2.1
  have hmatch : matchNumUnit (ds ++ ws2 ++ (c :: ut).map pyLower) =
      some (ds, (c :: ut).map pyLower) := by
    rw [List.map_cons]
    exact matchNumUnit_exact hds hd h2
      ((hlfacts c (by simp)).2.1)
      ((hlfacts c (by simp)).2.2.2)
      ((hlfacts c (by simp)).2.2.1)
      (by
        intro x hx
        obtain ⟨y, hy, hyx⟩ := List.mem_map.mp hx
        rw [← hyx]
        exact (hlfacts y (by simp [hy])).2.1)
  simp only [parse_duration_to_days]
  rw [hmapfix, stripChars_pad h1 h3, hcore, hmatch]

theorem claim5_witness : parse_duration_to_days (String.mk (("2 weeks").data)) = 14 := by
  have h := claim5_unit_scaling [] (("2").data) ((" ").data) (("weeks").data) []
    (by decide) (by decide) (by decide) (by decide) (by decide) (by decide) (by decide)
  exact h.trans (by decide)

theorem matchNumUnit_none_of_no_digit {t : List Char}
    (h : ∀ c ∈ t, isDigitChar c = false) : matchNumUnit t = none := by
  have ht : t.takeWhile isDigitChar = [] := by
    cases t with
    | nil => rfl
    | cons c r => exact takeWhile_nil_of_head (h c (by simp))
  unfold matchNumUnit
  rw [ht]
  rfl

theorem pyLower_keeps_no_digit {c : Char} (h : isDigitChar c = false) :
    isDigitChar (pyLower c) = false := by
  by_cases hup : 65 ≤ c.toNat ∧ c.toNat ≤ 90
  · have := pyLower_toNat_of_upper hup
    simp [isDigitChar, this]
    omega
  · rw [pyLower_eq_self hup]
    exact h

theorem pyInt_none_of_no_digit {s : List Char}
    (h : ∀ c ∈ s, isDigitChar c = false) : pyInt s = none := by
  have hsub : ∀ c ∈ stripChars s, isDigitChar c = false := fun c hc => h c (mem_stripChars hc)
  have hdu : ∀ (l : List Char), (∀ c ∈ l, isDigitChar c = false) →
      digitsWithUnderscores l = none := by
    intro l hl
    cases l with
    | nil => rfl
    | cons d dt =>
      simp only [digitsWithUnderscores]
      rw [hl d (by simp)]
      rfl
  unfold pyInt
  split
  next rest heq =>
    rw [hdu rest (fun c hc => hsub c (by rw [heq]; simp [hc]))]
    rfl
  next rest heq =>
    rw [hdu rest (fun c hc => hsub c (by rw [heq]; simp [hc]))]
    rfl
  next t2 hne1 hne2 =>
    rw [hdu (stripChars s) hsub]
    rfl

theorem parse_no_match {s : String}
    (h : matchNumUnit (stripChars (s.data.map pyLower)) = none) :
    parse_duration_to_days s = (pyInt (stripChars (s.data.map pyLower))).getD 30 := by
  simp only [parse_duration_to_days]
  rw [h]
  cases pyInt (stripChars (s.data.map pyLower)) <;> rfl

/-- C6: when the input does not match the number+unit regex, the parser
interprets the whole lowercased, stripped string as a bare integer day
count via `int`; when that fails too, and in particular whenever the
input contains no digit at all, it returns the fixed default 30. -/
theorem claim6_fallback_parsing :
    (∀ s : String, matchNumUnit (stripChars (s.data.map pyLower)) = none →
      parse_duration_to_days s = (pyInt (stripChars (s.data.map pyLower))).getD 30) ∧
    (∀ s : String, (∀ c ∈ s.data, isDigitChar c = false) →
      parse_duration_to_days s = 30) ∧
    parse_duration_to_days ("-5") = -5 ∧
    parse_duration_to_days ("5") = 5 ∧
    parse_duration_to_days (" 7 ") = 7 ∧
    parse_duration_to_days ("+2") = 2 ∧
    parse_duration_to_days ("soon") = 30 ∧
    parse_duration_to_days ("") = 30 := by
  refine ⟨fun s h => parse_no_match h, ?_, by decide, by decide, by decide, by decide,
    by decide, by decide⟩
  intro s h
  have hlow : ∀ c ∈ s.data.map pyLower, isDigitChar c = false := by
    intro c hc
    obtain ⟨d, hd, hdc⟩ := List.mem_map.mp hc
    rw [← hdc]
    exact pyLower_keeps_no_digit (h d hd)
  have hstripnd : ∀ c ∈ stripChars (s.data.map pyLower), isDigitChar c = false :=
    fun c hc => hlow c (mem_stripChars hc)
  rw [parse_no_match (matchNumUnit_none_of_no_digit hstripnd),
    pyInt_none_of_no_digit hstripnd]
  rfl

theorem claim6_witness : parse_duration_to_days ("??") = 30 :=
  claim6_fallback_parsing.2.1 ("??") (by decide)
